import Mathlib

/-!
# Verification of the craft-llms Markdown transformation pipeline

Shallow embedding of the Markdown transform module (`src/markdown.ts`),
the include expander, and the page/index assembler (`src/build.ts`) of the
craft-llms repository, together with proofs settling the frozen claims.

Strings are modelled by Lean `String` (a list of characters); JavaScript
regular-expression scans are embedded as explicit left-to-right scanners
with the same leftmost, non-overlapping match semantics.  JavaScript `\s`
is modelled by the six ASCII whitespace characters (the inputs handled by
the pipeline are ASCII).  `localeCompare` is modelled by the lexicographic
order on strings.  Node `path.resolve` of a relative path consults the
process working directory; the model fixes that directory to `/`.
-/

/-- JavaScript `\s` on ASCII: space, tab, newline, vertical tab, form feed,
carriage return. -/
def isJsSpace (c : Char) : Bool :=
  c = ' ' || c = '\t' || c = '\n' || c = Char.ofNat 11 || c = Char.ofNat 12 || c = '\r'

/-- JavaScript `String.prototype.trim` (ASCII model). -/
def jsTrim (s : String) : String :=
  String.mk (((s.data.dropWhile isJsSpace).reverse.dropWhile isJsSpace).reverse)

/-- JavaScript `String.prototype.toLowerCase` (ASCII model). -/
def strLower (s : String) : String :=
  String.mk (s.data.map Char.toLower)

/-- JavaScript `String.prototype.startsWith`. -/
def strHasLead (s p : String) : Bool :=
  p.data.isPrefixOf s.data

/-- JavaScript `String.prototype.endsWith`. -/
def strEnds (s p : String) : Bool :=
  p.data.isSuffixOf s.data

/-- `content.split('\n')` on the character list: splitting on `'\n'`,
always producing at least one (possibly empty) piece. -/
def splitOnNl : List Char → List (List Char)
  | [] => [[]]
  | c :: rest =>
    if c = '\n' then [] :: splitOnNl rest
    else
      match splitOnNl rest with
      | [] => [[c]]
      | h :: t => (c :: h) :: t

/-- `content.split('\n')`, as a list of lines. -/
def splitLines (s : String) : List String :=
  (splitOnNl s.data).map String.mk

/-- `lines.join('\n')`. -/
def joinLines (ls : List String) : String :=
  String.intercalate "\n" ls

/-! ## Fence tracker (`FenceState`, `updateFenceState`) -/

/-- `FenceState` from `src/markdown.ts`: whether the scan is inside a fenced
code block, and which marker opened it (`"```"`, `"~~~"` or `""`). -/
structure FenceState where
  inFence : Bool
  fenceMarker : String
deriving DecidableEq, Repr

/-- The initial fence state `{ inFence: false, fenceMarker: '' }`. -/
def initFence : FenceState := ⟨false, ""⟩

/-- `updateFenceState` from `src/markdown.ts`: a line whose trimmed form
starts with ``` or ~~~ toggles fencing; only the opening marker closes. -/
def updateFenceState (line : String) (state : FenceState) : FenceState :=
  let trimmed := jsTrim line
  let marker :=
    if strHasLead trimmed "```" then "```"
    else if strHasLead trimmed "~~~" then "~~~"
    else ""
  if marker = "" then state
  else if !state.inFence then ⟨true, marker⟩
  else if state.fenceMarker = marker then ⟨false, ""⟩
  else state

/-! ## Frontmatter stripper (`stripFrontmatter`) -/

/-- Scan for the closing `---` delimiter line; return the lines after it. -/
def frontmatterRest : List String → Option (List String)
  | [] => none
  | l :: ls => if jsTrim l = "---" then some ls else frontmatterRest ls

/-- `stripFrontmatter` from `src/markdown.ts`: if the first line trims to
`---`, drop everything through the next line trimming to `---`; otherwise
(or when no closing delimiter exists) return the content unchanged. -/
def stripFrontmatter (content : String) : String :=
  match splitLines content with
  | [] => content
  | l0 :: rest =>
    if jsTrim l0 = "---" then
      match frontmatterRest rest with
      | some remaining => joinLines remaining
      | none => content
    else content

/-! ## Directive/component rewriter
(`stripHtmlComments`, `replaceComponentTags`, `parseAttributes`,
`componentText`, `stripVuePressDirectives`) -/

/-- Search for the earliest `-->`; return the input after it. -/
def dropCmtClose : List Char → Option (List Char)
  | [] => none
  | c :: cs =>
    if (c :: cs).take 3 = "-->".data then some ((c :: cs).drop 3)
    else dropCmtClose cs

/-- Scanner for `line.replace(/<!--[\s\S]*?-->/g, '')`: each `<!--` with a
later `-->` is removed together with the (minimal) text between them. -/
def stripCmtAux : Nat → List Char → List Char
  | 0, cs => cs
  | _ + 1, [] => []
  | f + 1, c :: cs =>
    if (c :: cs).take 4 = "<!--".data then
      match dropCmtClose ((c :: cs).drop 4) with
      | some rest => stripCmtAux f rest
      | none => c :: stripCmtAux f cs
    else c :: stripCmtAux f cs

/-- `stripHtmlComments` from `src/markdown.ts`. -/
def stripHtmlComments (line : String) : String :=
  String.mk (stripCmtAux (line.data.length + 1) line.data)

/-- Character class `[^\s/>]` of the tag-name tail in `COMPONENT_TAG_RE`. -/
def isTagNameChar (c : Char) : Bool :=
  !(isJsSpace c || c = '/' || c = '>')

/-- One match of `COMPONENT_TAG_RE = /<\/?([A-Za-z][^\s\/>]*)(\s[^>]*)?>/`:
the matched text, whether it is a closing tag, the two captures, and the
input after the match. -/
structure TagMatch where
  matched : String
  closing : Bool
  tagName : String
  attrPart : String
  rest : List Char

/-- Attempt to match `COMPONENT_TAG_RE` at the start of the input. -/
def matchTagAt (cs : List Char) : Option TagMatch :=
  match cs with
  | '<' :: rest =>
    let closing := rest.head? = some '/'
    let rest1 := if closing then rest.drop 1 else rest
    match rest1 with
    | c :: r2 =>
      if c.isAlpha then
        let nameTail := r2.takeWhile isTagNameChar
        let name := String.mk (c :: nameTail)
        let afterName := r2.drop nameTail.length
        match afterName with
        | '>' :: r3 =>
          some ⟨"<" ++ (if closing then "/" else "") ++ name ++ ">", closing, name, "", r3⟩
        | w :: r3 =>
          if isJsSpace w then
            let attrTail := r3.takeWhile (· ≠ '>')
            match r3.drop attrTail.length with
            | '>' :: r4 =>
              let attrPart := String.mk (w :: attrTail)
              some ⟨"<" ++ (if closing then "/" else "") ++ name ++ attrPart ++ ">",
                    closing, name, attrPart, r4⟩
            | _ => none
          else none
        | [] => none
      else none
    | [] => none
  | _ => none

/-- Character class `[A-Za-z0-9:_-]` of attribute names. -/
def isAttrNameChar (c : Char) : Bool :=
  c.isAlpha || c.isDigit || c = ':' || c = '_' || c = '-'

/-- Scanner for the attribute regex `/([A-Za-z0-9:_-]+)\s*=\s*"([^"]*)"/g`.
Recognized pairs are pushed to the front, so a later duplicate shadows an
earlier one on lookup (source: later assignment overwrites). -/
def parseAttrsAux : Nat → List Char → List (String × String) → List (String × String)
  | 0, _, acc => acc
  | _ + 1, [], acc => acc
  | f + 1, c :: cs, acc =>
    if isAttrNameChar c then
      let nameTail := cs.takeWhile isAttrNameChar
      let name := String.mk (c :: nameTail)
      let r1 := cs.drop nameTail.length
      match r1.dropWhile isJsSpace with
      | '=' :: r3 =>
        match r3.dropWhile isJsSpace with
        | '"' :: r5 =>
          let v := r5.takeWhile (· ≠ '"')
          match r5.drop v.length with
          | '"' :: r6 => parseAttrsAux f r6 ((strLower name, String.mk v) :: acc)
          | _ => parseAttrsAux f cs acc
        | _ => parseAttrsAux f cs acc
      | _ => parseAttrsAux f cs acc
    else parseAttrsAux f cs acc

/-- `parseAttributes` from `src/markdown.ts`. -/
def parseAttributes (raw : String) : List (String × String) :=
  parseAttrsAux (raw.data.length + 1) raw.data []

/-- Attribute lookup: `attrs[name]` (keys are stored lowercased). -/
def getAttr (attrs : List (String × String)) (k : String) : Option String :=
  attrs.lookup k

/-- A `??`-chain over attribute keys ending in `''`:
`attrs.k1 ?? attrs.k2 ?? ... ?? ''`. -/
def attrOr (attrs : List (String × String)) : List String → String
  | [] => ""
  | k :: ks =>
    match getAttr attrs k with
    | some v => v
    | none => attrOr attrs ks

/-- `componentText` from `src/markdown.ts`. -/
def componentText (tagName : String) (attrs : List (String × String)) : String :=
  let name := strLower tagName
  if name = "since" then
    let ver := attrOr attrs ["ver", "version"]
    let feature := attrOr attrs ["feature", "text", "label"]
    if ver ≠ "" ∧ feature ≠ "" then "Since " ++ ver ++ ": " ++ feature
    else if ver ≠ "" then "Since " ++ ver
    else if feature ≠ "" then "Since: " ++ feature
    else "Since"
  else if name = "badge" then attrOr attrs ["text", "label", "title"]
  else if name = "todo" then
    let notes := attrOr attrs ["notes", "text", "label"]
    if notes ≠ "" then "TODO: " ++ notes else "TODO"
  else if name = "journey" then
    let p := attrOr attrs ["path", "label", "text"]
    if p ≠ "" then "Journey: " ++ p else "Journey"
  else if name = "see" then
    let label := attrOr attrs ["label", "text", "title"]
    let description := attrOr attrs ["description", "desc"]
    let target := attrOr attrs ["path", "url"]
    let parts := [label, description, target].filter (· ≠ "")
    if parts = [] then "See" else String.intercalate " - " parts
  else if name = "cloud" then ""
  else attrOr attrs ["text", "label", "title"]

/-- The `INLINE_COMPONENT_TAGS` set. -/
def INLINE_COMPONENT_TAGS : List String :=
  ["badge", "cloud", "journey", "see", "since", "todo"]

/-- The `DROP_COMPONENT_TAGS` set. -/
def DROP_COMPONENT_TAGS : List String :=
  ["block", "browsershot", "codeplaceholder", "column", "columns", "tab", "tabs"]

/-- The `STANDARD_HTML_TAGS` set. -/
def STANDARD_HTML_TAGS : List String :=
  ["a", "abbr", "address", "article", "aside", "audio", "b", "blockquote", "br",
   "button", "caption", "cite", "code", "col", "colgroup", "data", "datalist",
   "dd", "del", "details", "dfn", "div", "dl", "dt", "em", "figcaption",
   "figure", "footer", "form", "h1", "h2", "h3", "h4", "h5", "h6", "header",
   "hr", "i", "img", "input", "ins", "kbd", "label", "li", "main", "mark",
   "nav", "ol", "p", "pre", "q", "s", "samp", "section", "small", "span",
   "strong", "sub", "summary", "sup", "table", "tbody", "td", "textarea",
   "tfoot", "th", "thead", "time", "tr", "u", "ul", "var"]

/-- The replacement callback of `replaceComponentTags`, applied to one
matched tag token. -/
def componentReplacement (tm : TagMatch) : String :=
  let lowerName := strLower tm.tagName
  let isSelfClosing := strEnds tm.matched "/>"
  if STANDARD_HTML_TAGS.contains lowerName then tm.matched
  else if DROP_COMPONENT_TAGS.contains lowerName then ""
  else if tm.closing then ""
  else if tm.tagName.data.contains ':' then tm.tagName
  else
    let attrs := parseAttributes tm.attrPart
    if INLINE_COMPONENT_TAGS.contains lowerName || isSelfClosing then
      let text := componentText tm.tagName attrs
      if text = "" then tm.tagName else text
    else if attrs ≠ [] then ""
    else if (match tm.tagName.data with | c :: _ => c.isUpper | [] => false) then ""
    else tm.tagName

/-- Scanner applying `componentReplacement` to every `COMPONENT_TAG_RE`
match, left to right, non-overlapping. -/
def replaceTagsAux : Nat → List Char → List Char
  | 0, cs => cs
  | _ + 1, [] => []
  | f + 1, c :: cs =>
    match matchTagAt (c :: cs) with
    | some tm => (componentReplacement tm).data ++ replaceTagsAux f tm.rest
    | none => c :: replaceTagsAux f cs

/-- `replaceComponentTags` from `src/markdown.ts`. -/
def replaceComponentTags (line : String) : String :=
  String.mk (replaceTagsAux (line.data.length + 1) line.data)

/-- The per-line loop of `stripVuePressDirectives`: fence state is updated
first; fenced lines pass through; lines trimming to a `:::` or `!!!`
directive are dropped; other lines get comments stripped and component
tags replaced. -/
def stripVuePressCore (state : FenceState) : List String → List String
  | [] => []
  | l :: ls =>
    let st2 := updateFenceState l state
    if st2.inFence then l :: stripVuePressCore st2 ls
    else
      let t := jsTrim l
      if strHasLead t ":::" || strHasLead t "!!!" then stripVuePressCore st2 ls
      else replaceComponentTags (stripHtmlComments l) :: stripVuePressCore st2 ls

/-- `stripVuePressDirectives` from `src/markdown.ts`. -/
def stripVuePressDirectives (content : String) : String :=
  joinLines (stripVuePressCore initFence (splitLines content))

/-- The per-file cleaning applied by `build` (`src/build.ts` lines 52-53):
frontmatter stripping followed by directive/component rewriting. -/
def buildCleaned (raw : String) : String :=
  stripVuePressDirectives (stripFrontmatter raw)

/-! ## Metadata extractor: summary (`extractSummary`, `cleanSummaryText`) -/

/-- `HEADING_RE = /^#{1,6}\s+/` applied to a trimmed line. -/
def headingTest (t : String) : Bool :=
  let hashes := t.data.takeWhile (· = '#')
  let after := t.data.drop hashes.length
  decide (1 ≤ hashes.length) && decide (hashes.length ≤ 6) &&
    (match after with | c :: _ => isJsSpace c | [] => false)

/-- `LIST_RE = /^\s*([-*+]|\d+\.)\s+/` applied to a trimmed line (the
leading `\s*` is vacuous on trimmed input). -/
def listTest (t : String) : Bool :=
  match t.data with
  | c :: rest =>
    if c = '-' || c = '*' || c = '+' then
      match rest with | d :: _ => isJsSpace d | [] => false
    else if c.isDigit then
      let digits := rest.takeWhile Char.isDigit
      match rest.drop digits.length with
      | '.' :: d :: _ => isJsSpace d
      | _ => false
    else false
  | [] => false

/-- `HTML_TAG_ONLY_RE = /^<[^>]+>$/` applied to a trimmed line. -/
def htmlTagOnlyTest (t : String) : Bool :=
  match t.data with
  | '<' :: rest =>
    let mid := rest.takeWhile (· ≠ '>')
    decide (1 ≤ mid.length) && rest.drop mid.length = ['>']
  | _ => false

/-- The collection loop of `extractSummary`: fence-aware, skipping fenced
lines, heading lines, list items and pure HTML-tag lines, collecting the
first contiguous paragraph of trimmed lines and stopping at the first
blank line after the paragraph started. -/
def summaryCore (state : FenceState) (acc : List String) : List String → List String
  | [] => acc
  | l :: ls =>
    let st2 := updateFenceState l state
    if st2.inFence then summaryCore st2 acc ls
    else
      let t := jsTrim l
      if t = "" then
        if acc ≠ [] then acc else summaryCore st2 acc ls
      else if headingTest t || listTest t then summaryCore st2 acc ls
      else if htmlTagOnlyTest t then summaryCore st2 acc ls
      else summaryCore st2 (acc ++ [t]) ls

/-- Scanner for `/!\[([^\]]*)\]\([^)]*\)/g → '$1'`: Markdown image syntax
replaced by its alt text. -/
def imagesToAltAux : Nat → List Char → List Char
  | 0, cs => cs
  | _ + 1, [] => []
  | f + 1, c :: cs =>
    match c :: cs with
    | '!' :: '[' :: r1 =>
      let alt := r1.takeWhile (· ≠ ']')
      match r1.drop alt.length with
      | ']' :: '(' :: r2 =>
        let url := r2.takeWhile (· ≠ ')')
        match r2.drop url.length with
        | ')' :: r3 => alt ++ imagesToAltAux f r3
        | _ => c :: imagesToAltAux f cs
      | _ => c :: imagesToAltAux f cs
    | _ => c :: imagesToAltAux f cs

/-- Scanner for `/\[([^\]]+)\]\([^)]*\)/g → '$1'`: Markdown link syntax
replaced by its link text (nonempty text, no lookbehind). -/
def linksToTextAux : Nat → List Char → List Char
  | 0, cs => cs
  | _ + 1, [] => []
  | f + 1, c :: cs =>
    if c = '[' then
      let text := cs.takeWhile (· ≠ ']')
      if text.isEmpty then c :: linksToTextAux f cs
      else
        match cs.drop text.length with
        | ']' :: '(' :: r2 =>
          let url := r2.takeWhile (· ≠ ')')
          match r2.drop url.length with
          | ')' :: r3 => text ++ linksToTextAux f r3
          | _ => c :: linksToTextAux f cs
        | _ => c :: linksToTextAux f cs
    else c :: linksToTextAux f cs

/-- Scanner for `/<[^>]+>/g → ''`: remaining HTML tags removed. -/
def stripTagsAux : Nat → List Char → List Char
  | 0, cs => cs
  | _ + 1, [] => []
  | f + 1, c :: cs =>
    if c = '<' then
      let mid := cs.takeWhile (· ≠ '>')
      if mid.isEmpty then c :: stripTagsAux f cs
      else
        match cs.drop mid.length with
        | '>' :: r2 => stripTagsAux f r2
        | _ => c :: stripTagsAux f cs
    else c :: stripTagsAux f cs

/-- Scanner for ``/`([^`]*)`/g → '$1'``: inline code markers removed,
content kept. -/
def stripTicksAux : Nat → List Char → List Char
  | 0, cs => cs
  | _ + 1, [] => []
  | f + 1, c :: cs =>
    if c = '`' then
      let body := cs.takeWhile (· ≠ '`')
      match cs.drop body.length with
      | '`' :: r2 => body ++ stripTicksAux f r2
      | _ => c :: stripTicksAux f cs
    else c :: stripTicksAux f cs

/-- `/^>+\s*/g → ''`: leading blockquote markers (anchored, so applied at
most once, at the start). -/
def stripLeadQuote (cs : List Char) : List Char :=
  match cs with
  | '>' :: _ => (cs.dropWhile (· = '>')).dropWhile isJsSpace
  | _ => cs

/-- `/\s+/g → ' '`: runs of whitespace collapsed to one space. -/
def collapseWsAux : Nat → List Char → List Char
  | 0, cs => cs
  | _ + 1, [] => []
  | f + 1, c :: cs =>
    if isJsSpace c then ' ' :: collapseWsAux f (cs.dropWhile isJsSpace)
    else c :: collapseWsAux f cs

/-- `cleanSummaryText` from `src/markdown.ts`: images to alt text, links to
link text, HTML tags removed, inline code markers removed, leading
blockquote markers removed, whitespace collapsed, result trimmed. -/
def cleanSummaryText (text : String) : String :=
  let s1 := imagesToAltAux (text.data.length + 1) text.data
  let s2 := linksToTextAux (s1.length + 1) s1
  let s3 := stripTagsAux (s2.length + 1) s2
  let s4 := stripTicksAux (s3.length + 1) s3
  let s5 := stripLeadQuote s4
  let s6 := collapseWsAux (s5.length + 1) s5
  jsTrim (String.mk s6)

/-- The paragraph collected by `extractSummary` for a content. -/
def summaryParagraph (content : String) : List String :=
  summaryCore initFence [] (splitLines content)

/-- `extractSummary` from `src/markdown.ts`: the collected paragraph lines
joined with single spaces and cleaned. -/
def extractSummary (content : String) : String :=
  cleanSummaryText (String.intercalate " " (summaryParagraph content))

/-! ## Metadata extractor: title (`extractTitle`) -/

/-- One line against the title regex `/^#\s+(.+?)\s*#*\s*$/`, returning
`match[1].trim()` on success: a single `#`, at least one space, then the
lazily-minimal body, which (because the trailing `\s*#*\s*` is then
maximal) is the rest of the line with one trailing run of
whitespace-hashes-whitespace stripped; when that leaves nothing, the
backtracking regex still matches with a one-character body. -/
def titleOfLine (line : String) : Option String :=
  match line.data with
  | '#' :: rest =>
    let ws := rest.takeWhile isJsSpace
    if ws.isEmpty then none
    else
      let r := rest.drop ws.length
      if r.isEmpty then
        if 2 ≤ ws.length then some "" else none
      else
        let t1 := (r.reverse.dropWhile isJsSpace).reverse
        let t2 := (t1.reverse.dropWhile (fun c => c = '#')).reverse
        let t3 := (t2.reverse.dropWhile isJsSpace).reverse
        if t3.isEmpty then some (jsTrim (String.mk (r.take 1)))
        else some (jsTrim (String.mk t3))
  | _ => none

/-- The line loop of `extractTitle`: fence-aware scan for the first
level-1 heading line. -/
def extractTitleCore (fallback : String) (state : FenceState) : List String → String
  | [] => fallback
  | l :: ls =>
    let st2 := updateFenceState l state
    if st2.inFence then extractTitleCore fallback st2 ls
    else
      match titleOfLine l with
      | some t => t
      | none => extractTitleCore fallback st2 ls

/-- `extractTitle` from `src/markdown.ts`. -/
def extractTitle (content : String) (fallback : String) : String :=
  extractTitleCore fallback initFence (splitLines content)


/-! ## Posix path model
(`path.posix` as used by `markdown.ts`: `normalize`, `join`, `dirname`,
`resolve`).  `path.resolve` of a relative path consults the process
working directory, fixed to `/` in this model; trailing-slash
preservation of Node `normalize` is omitted (every use here feeds
`resolve` or appends a file name). -/

/-- Split on `/` at the character level (empty parts included). -/
def splitSlashChars : List Char → List (List Char)
  | [] => [[]]
  | c :: rest =>
    if c = '/' then [] :: splitSlashChars rest
    else
      match splitSlashChars rest with
      | [] => [[c]]
      | h :: t => (c :: h) :: t

/-- Split a path into its `/`-separated parts (empty parts included). -/
def splitSlash (cs : List Char) : List String :=
  (splitSlashChars cs).map String.mk

/-- Process `.` and `..` segments: for an absolute path `..` at the root is
dropped; for a relative path leading `..` segments are kept. -/
def normPartsStep (abs : Bool) (acc : List String) (seg : String) : List String :=
  if seg = "" ∨ seg = "." then acc
  else if seg = ".." then
    if acc ≠ [] ∧ acc.getLast? ≠ some ".." then acc.dropLast
    else if abs then acc else acc ++ [".."]
  else acc ++ [seg]

/-- Normalized segments of a path. -/
def normParts (abs : Bool) (parts : List String) : List String :=
  parts.foldl (normPartsStep abs) []

/-- Normalize an absolute posix path string (leading `/` restored). -/
def resolveAbs (s : String) : String :=
  "/" ++ String.intercalate "/" (normParts true (splitSlash s.data))

/-- `path.resolve(p)` with the working directory modelled as `/`. -/
def pathResolve1 (p : String) : String :=
  if strHasLead p "/" then resolveAbs p else resolveAbs ("/" ++ p)

/-- `path.resolve(base, rel)`: a `/`-anchored `rel` wins, otherwise the
concatenation is resolved. -/
def pathResolve2 (base rel : String) : String :=
  if strHasLead rel "/" then resolveAbs rel else pathResolve1 (base ++ "/" ++ rel)

/-- `path.posix.join(a, b)` (which normalizes the joined path). -/
def pathJoin (a b : String) : String :=
  let s := a ++ "/" ++ b
  if strHasLead s "/" then resolveAbs s
  else
    let ps := normParts false (splitSlash s.data)
    if ps = [] then "." else String.intercalate "/" ps

/-- `path.posix.dirname(p)`: everything before the final separator, with
`.` for separator-free paths and `/` kept for root children.  Handling of
repeated separators is simplified (Node keeps a duplicate trailing
separator in the result); every use feeds `join` or `resolve`, which
normalize it away. -/
def pathDirname (p : String) : String :=
  let cs := p.data
  let noTrail := (cs.reverse.dropWhile (· = '/')).reverse
  let kept := (noTrail.reverse.dropWhile (· ≠ '/')).reverse
  if kept = [] then (if cs.head? = some '/' then "/" else ".")
  else
    let stripped := (kept.reverse.dropWhile (· = '/')).reverse
    if stripped = [] then "/" else String.mk stripped

/-! ## Doc-path mapping and link normalization
(`mapDocPath`, `docPathToUrl`, `normalizeDocLink`,
`normalizeLinkDestination`, `normalizeReferenceDefinition`,
`normalizeLinks`) -/

/-- `mapDocPath` from `src/markdown.ts`: `readme.md`/`index.md` (final
segment, case-insensitive) fold to the directory's `index.html`, other
`.md` paths swap the extension to `.html`, anything else passes through. -/
def mapDocPath (docPath : String) : String :=
  let lowerPath := strLower docPath
  if lowerPath = "readme.md" || strEnds lowerPath "/readme.md" then
    pathJoin (pathDirname docPath) "index.html"
  else if lowerPath = "index.md" || strEnds lowerPath "/index.md" then
    pathJoin (pathDirname docPath) "index.html"
  else if strEnds lowerPath ".md" then
    String.mk (docPath.data.take (docPath.data.length - 3)) ++ ".html"
  else docPath

/-- `baseUrl.endsWith('/') ? baseUrl : baseUrl + '/'`. -/
def normalizeBase (baseUrl : String) : String :=
  if strEnds baseUrl "/" then baseUrl else baseUrl ++ "/"

/-- Strip one leading `/` (`replace(/^\//, '')`). -/
def stripOneSlash (s : String) : String :=
  match s.data with
  | '/' :: rest => String.mk rest
  | _ => s

/-- `docPathToUrl` from `src/markdown.ts`. -/
def docPathToUrl (relativePath : String) (baseUrl : String) : String :=
  let posixPath :=
    stripOneSlash (String.mk (relativePath.data.map (fun c => if c = '\\' then '/' else c)))
  normalizeBase baseUrl ++ stripOneSlash (mapDocPath posixPath)

/-- The scheme test `/^[a-zA-Z][a-zA-Z0-9+.-]*:/`. -/
def hasScheme (s : String) : Bool :=
  match s.data with
  | c :: rest =>
    c.isAlpha &&
      ((rest.dropWhile (fun d => d.isAlpha || d.isDigit || d = '+' || d = '.' || d = '-')).head?
        = some ':')
  | [] => false

/-- Split at the first occurrence of a character: the part before it and
the part from it on (`indexOf` + two `slice`s). -/
def splitAtFirst (c : Char) (cs : List Char) : List Char × List Char :=
  let pre := cs.takeWhile (· ≠ c)
  (pre, cs.drop pre.length)

/-- `normalizeDocLink` from `src/markdown.ts`. -/
def normalizeDocLink (url currentFilePath baseUrl : String) : String :=
  if url = "" || strHasLead url "#" then url
  else if strHasLead url "//" || hasScheme url then url
  else
    let (p1, hash) := splitAtFirst '#' url.data
    let (p2, query) := splitAtFirst '?' p1
    let isRoot := p2.head? = some '/'
    let p3 :=
      if isRoot then
        let p3a :=
          if "/docs/5.x/".data.isPrefixOf p2 then p2.drop "/docs/5.x/".data.length else p2
        p3a.dropWhile (· = '/')
      else p2
    if p3 = [] then url
    else
      let resolvedPath :=
        if isRoot then String.mk p3
        else pathJoin (pathDirname currentFilePath) (String.mk p3)
      normalizeBase baseUrl ++ stripOneSlash (mapDocPath resolvedPath)
        ++ String.mk query ++ String.mk hash

/-- `normalizeLinkDestination` from `src/markdown.ts`: whitespace padding
preserved, angle-bracket destinations unwrapped and rewrapped, otherwise
the first whitespace-free token normalized. -/
def normalizeLinkDestination (rawDestination currentFilePath baseUrl : String) : String :=
  let cs := rawDestination.data
  let leading := cs.takeWhile isJsSpace
  let trailing := (cs.reverse.takeWhile isJsSpace).reverse
  let inner := (cs.drop leading.length).take (cs.length - trailing.length - leading.length)
  if inner = [] then rawDestination
  else if inner.head? = some '<' ∧ (inner.drop 1).contains '>' then
    let url := (inner.drop 1).takeWhile (· ≠ '>')
    let rest := (inner.drop 1).drop (url.length + 1)
    String.mk leading ++ "<" ++ normalizeDocLink (String.mk url) currentFilePath baseUrl
      ++ ">" ++ String.mk rest ++ String.mk trailing
  else
    let url := inner.takeWhile (fun c => !isJsSpace c)
    let rest := inner.drop url.length
    String.mk leading ++ normalizeDocLink (String.mk url) currentFilePath baseUrl
      ++ String.mk rest ++ String.mk trailing

/-- Scanner for the inline-link rewrite
`line.replace(/(?<!!)\[([^\]]+)\]\(([^)]+)\)/g, ...)`: `prev` is the
character just before the scan position (for the `(?<!!)` lookbehind). -/
def inlineLinksAux (currentFilePath baseUrl : String) : Nat → Option Char → List Char → List Char
  | 0, _, cs => cs
  | _ + 1, _, [] => []
  | f + 1, prev, c :: cs =>
    if c = '[' ∧ prev ≠ some '!' then
      let text := cs.takeWhile (· ≠ ']')
      if text.isEmpty then c :: inlineLinksAux currentFilePath baseUrl f (some c) cs
      else
        match cs.drop text.length with
        | ']' :: '(' :: r2 =>
          let dest := r2.takeWhile (· ≠ ')')
          if dest.isEmpty then c :: inlineLinksAux currentFilePath baseUrl f (some c) cs
          else
            match r2.drop dest.length with
            | ')' :: r3 =>
              ('[' :: text) ++ (']' :: '(' ::
                (normalizeLinkDestination (String.mk dest) currentFilePath baseUrl).data)
                ++ (')' :: inlineLinksAux currentFilePath baseUrl f (some ')') r3)
            | _ => c :: inlineLinksAux currentFilePath baseUrl f (some c) cs
        | _ => c :: inlineLinksAux currentFilePath baseUrl f (some c) cs
    else c :: inlineLinksAux currentFilePath baseUrl f (some c) cs

/-- `normalizeReferenceDefinition` from `src/markdown.ts`: a line matching
`/^(\s*\[[^\]]+\]:\s*)(\S+)([\s\S]*)$/` has its destination token
normalized. -/
def normalizeReferenceDefinition (line currentFilePath baseUrl : String) : String :=
  let cs := line.data
  let ws0 := cs.takeWhile isJsSpace
  match cs.drop ws0.length with
  | '[' :: r1 =>
    let label := r1.takeWhile (· ≠ ']')
    if label.isEmpty then line
    else
      match r1.drop label.length with
      | ']' :: ':' :: r2 =>
        let ws1 := r2.takeWhile isJsSpace
        let r3 := r2.drop ws1.length
        let dest := r3.takeWhile (fun c => !isJsSpace c)
        if dest.isEmpty then line
        else
          let rest := r3.drop dest.length
          String.mk ws0 ++ "[" ++ String.mk label ++ "]:" ++ String.mk ws1
            ++ normalizeLinkDestination (String.mk dest) currentFilePath baseUrl
            ++ String.mk rest
      | _ => line
  | _ => line

/-- The per-line loop of `normalizeLinks`: fence state updated first,
fenced lines pass through, other lines get inline links then reference
definitions normalized. -/
def normalizeLinksCore (currentFilePath baseUrl : String) (state : FenceState) :
    List String → List String
  | [] => []
  | l :: ls =>
    let st2 := updateFenceState l state
    if st2.inFence then l :: normalizeLinksCore currentFilePath baseUrl st2 ls
    else
      let inl := String.mk (inlineLinksAux currentFilePath baseUrl (l.data.length + 1) none l.data)
      normalizeReferenceDefinition inl currentFilePath baseUrl
        :: normalizeLinksCore currentFilePath baseUrl st2 ls

/-- `normalizeLinks` from `src/markdown.ts`. -/
def normalizeLinks (content : String) (baseUrl currentFilePath : String) : String :=
  joinLines (normalizeLinksCore currentFilePath baseUrl initFence (splitLines content))

/-! ## Include expander
(`expandIncludeDirectives`, `resolveIncludePath` from `src/markdown.ts`).
The recursion on `depth` (which fails on entry once `depth > maxDepth`) is
embedded structurally through the remaining budget
`fuel = maxDepth + 1 - depth`, so the entry check `depth > maxDepth`
becomes `fuel = 0`. -/

/-- Expansion failures: the `throw`s of `expandIncludeDirectives` and
`resolveIncludePath`, plus a failing `fs.readFile`. -/
inductive ExpandErr where
  | depthExceeded : Nat → String → ExpandErr
  | cycle : String → ExpandErr
  | pathEscape : String → ExpandErr
  | readFailed : String → ExpandErr
deriving DecidableEq, Repr

/-- The file system, as a partial map from absolute paths to contents. -/
def Fs : Type := String → Option String

/-- The per-expansion read cache (latest entry first). -/
def Cache : Type := List (String × String)

/-- The raw resolution of `resolveIncludePath` (before the escape check):
`/`-anchored paths join under the repo root, dot-relative paths resolve
against the including file's directory, anything else joins under the
repo root. -/
def resolveRawInclude (includePath repoRoot currentFilePath : String) : String :=
  if strHasLead includePath "/" then
    pathJoin repoRoot (String.mk (includePath.data.dropWhile (· = '/')))
  else if strHasLead includePath "." then
    pathResolve2 (pathDirname currentFilePath) includePath
  else pathJoin repoRoot includePath

/-- `resolveIncludePath` from `src/markdown.ts`: resolve the include path,
then require the normalized result to be the normalized repo root or to
lie strictly under it (`root + '/'` prefix); otherwise a path-escape
error. -/
def resolveIncludePath (includePath repoRoot currentFilePath : String) :
    Except ExpandErr String :=
  let resolvedPath := resolveRawInclude includePath repoRoot currentFilePath
  let normalizedRoot := pathResolve1 repoRoot
  let normalizedPath := pathResolve1 resolvedPath
  if normalizedPath ≠ normalizedRoot ∧ strHasLead normalizedPath (normalizedRoot ++ "/") = false
  then .error (.pathEscape includePath)
  else .ok normalizedPath

/-- Attempt to match `INCLUDE_DIRECTIVE_RE = /!!!include\(([^)]+)\)!!!/` at
the start of the input: the capture and the input after the match. -/
def matchIncludeAt (cs : List Char) : Option (String × List Char) :=
  if cs.take 11 = "!!!include(".data then
    let after := cs.drop 11
    let body := after.takeWhile (· ≠ ')')
    if body.isEmpty then none
    else
      let after2 := after.drop body.length
      if after2.take 4 = ")!!!".data then some (String.mk body, after2.drop 4)
      else none
  else none

/-- A piece of content: literal text between directives, or the capture of
one inclusion directive. -/
inductive Seg where
  | lit : List Char → Seg
  | inc : String → Seg
deriving DecidableEq, Repr

/-- Is the segment a directive? -/
def isIncSeg : Seg → Bool
  | .inc _ => true
  | .lit _ => false

/-- Left-to-right, non-overlapping directive scan (`input.matchAll`
together with the slicing of the expansion loop). -/
def splitIncAux : Nat → List Char → List Char → List Seg
  | 0, acc, cs => [.lit (acc.reverse ++ cs)]
  | _ + 1, acc, [] => [.lit acc.reverse]
  | f + 1, acc, c :: cs =>
    match matchIncludeAt (c :: cs) with
    | some (b, rest) => .lit acc.reverse :: .inc b :: splitIncAux f [] rest
    | none => splitIncAux f (c :: acc) cs

/-- The directive decomposition of a content. -/
def splitIncludes (cs : List Char) : List Seg :=
  splitIncAux (cs.length + 1) [] cs

/-- The match loop of one expansion level: literals are copied, each
directive is trimmed, resolved, cycle-checked against the stack, read
through the cache, and expanded one level deeper (`expandChild`). -/
def goSegs (fs : Fs) (repoRoot : String)
    (expandChild : String → String → List String → Cache → Except ExpandErr (String × Cache))
    (filePath : String) :
    List Seg → List String → Cache → Except ExpandErr (String × Cache)
  | [], _, cache => .ok ("", cache)
  | .lit w :: rest, stack, cache =>
    match goSegs fs repoRoot expandChild filePath rest stack cache with
    | .ok (s, c2) => .ok (String.mk w ++ s, c2)
    | .error e => .error e
  | .inc b :: rest, stack, cache =>
    match resolveIncludePath (jsTrim b) repoRoot filePath with
    | .error e => .error e
    | .ok resolvedPath =>
      if stack.contains resolvedPath then .error (.cycle resolvedPath)
      else
        match
          (match cache.lookup resolvedPath with
           | some s => Except.ok (s, cache)
           | none =>
             match fs resolvedPath with
             | some s => Except.ok (s, (resolvedPath, s) :: cache)
             | none => Except.error (ExpandErr.readFailed resolvedPath)) with
        | .error e => .error e
        | .ok (included, cache1) =>
          match expandChild included resolvedPath (resolvedPath :: stack) cache1 with
          | .error e => .error e
          | .ok (expanded, cache2) =>
            match goSegs fs repoRoot expandChild filePath rest stack cache2 with
            | .ok (tailStr, cache3) => .ok (expanded ++ tailStr, cache3)
            | .error e => .error e

/-- The recursive `expand` of `expandIncludeDirectives`, on the remaining
budget `fuel = maxDepth + 1 - depth`: entry with no budget is the
depth-exceeded throw; content without directives is returned unchanged. -/
def expandAux (fs : Fs) (repoRoot : String) (maxDepth : Nat) :
    Nat → String → String → List String → Cache → Except ExpandErr (String × Cache)
  | 0 => fun _ filePath _ _ => .error (.depthExceeded maxDepth filePath)
  | f + 1 => fun input filePath stack cache =>
    let segs := splitIncludes input.data
    if segs.any isIncSeg then
      goSegs fs repoRoot (expandAux fs repoRoot maxDepth f) filePath segs stack cache
    else .ok (input, cache)

/-- Options of `expandIncludeDirectives`. -/
structure IncludeOptions where
  repoRoot : String
  currentFilePath : String
  maxDepth : Option Nat := none

/-- `expandIncludeDirectives` from `src/markdown.ts`: resolve the repo
root, default the maximum depth to 5, and expand from depth 0 with an
empty stack and cache. -/
def expandIncludeDirectives (fs : Fs) (content : String) (options : IncludeOptions) :
    Except ExpandErr String :=
  let repoRoot := pathResolve1 options.repoRoot
  let maxDepth := options.maxDepth.getD 5
  match expandAux fs repoRoot maxDepth (maxDepth + 1) content options.currentFilePath [] [] with
  | .ok (s, _) => .ok s
  | .error e => .error e

/-- A one-file file system for tests. -/
def fsOne (p c : String) : Fs := fun q => if q = p then some c else none

/-- Equality of expansion results is decidable. -/
instance : DecidableEq (Except ExpandErr String) := fun a b =>
  match a, b with
  | .ok x, .ok y =>
    match decEq x y with
    | isTrue h => isTrue (by rw [h])
    | isFalse h => isFalse (fun e => h (Except.ok.inj e))
  | .error x, .error y =>
    match decEq x y with
    | isTrue h => isTrue (by rw [h])
    | isFalse h => isFalse (fun e => h (Except.error.inj e))
  | .ok _, .error _ => isFalse (fun e => Except.noConfusion e)
  | .error _, .ok _ => isFalse (fun e => Except.noConfusion e)

/-! ## Page/index assembler (`build` from `src/build.ts`, lines 64-92):
grouping of index entries by first path segment and the sorted rendering
of the index sections.  `localeCompare` is modelled by the lexicographic
order on strings. -/

/-- One index entry (`IndexEntry` from `src/build.ts`). -/
structure IndexEntry where
  title : String
  url : String
  summary : String
  relPath : String
deriving DecidableEq, Repr

/-- The per-file inputs of the index assembly (title and summary are
computed from the cleaned content upstream of the grouping). -/
structure FileInfo where
  relPath : String
  title : String
  summary : String
deriving DecidableEq, Repr

/-- `relPath.includes('/') ? relPath.split('/')[0] : 'root'`. -/
def groupKey (relPath : String) : String :=
  if relPath.data.contains '/' then String.mk (relPath.data.takeWhile (· ≠ '/'))
  else "root"

/-- Append an entry to its group, preserving first-insertion group order
(the `Map` of `build`). -/
def addEntry (groups : List (String × List IndexEntry)) (key : String) (e : IndexEntry) :
    List (String × List IndexEntry) :=
  match groups with
  | [] => [(key, [e])]
  | (k, es) :: rest =>
    if k = key then (k, es ++ [e]) :: rest else (k, es) :: addEntry rest key e

/-- The grouping loop of `build` (lines 64-72). -/
def indexGroups (baseUrl : String) (files : List FileInfo) : List (String × List IndexEntry) :=
  files.foldl
    (fun gs fi =>
      addEntry gs (groupKey fi.relPath)
        ⟨fi.title, docPathToUrl fi.relPath baseUrl, fi.summary, fi.relPath⟩)
    []

/-- Lexicographic code-point order on character lists: the model of the
`localeCompare`-based sort comparators of `build`. -/
def lexLe : List Char → List Char → Bool
  | [], _ => true
  | _ :: _, [] => false
  | a :: as, b :: bs =>
    if a.toNat < b.toNat then true
    else if b.toNat < a.toNat then false
    else lexLe as bs

/-- Lexicographic order on strings. -/
def strLeB (a b : String) : Bool := lexLe a.data b.data

/-- Ordered insertion for an insertion sort with a boolean comparator
(the model of `Array.prototype.sort(comparator)`). -/
def insertLe (le : α → α → Bool) (a : α) : List α → List α
  | [] => [a]
  | b :: l => if le a b then a :: b :: l else b :: insertLe le a l

/-- Insertion sort with a boolean comparator. -/
def sortLe (le : α → α → Bool) : List α → List α
  | [] => []
  | b :: l => insertLe le b (sortLe le l)

/-- The rendering order of the index (lines 80-90): groups sorted by name,
entries within a group sorted by relative path. -/
def buildIndexSections (baseUrl : String) (files : List FileInfo) :
    List (String × List IndexEntry) :=
  let gs := indexGroups baseUrl files
  (sortLe strLeB (gs.map Prod.fst)).map
    (fun k =>
      (k, sortLe (fun a b : IndexEntry => strLeB a.relPath b.relPath)
        ((gs.lookup k).getD [])))

/-! ## Chain and cache predicates for the include expander -/

/-- Agreement of the read cache with the file system: every cached entry
is the stored content of its path. -/
def cacheAgrees (fs : Fs) (cache : Cache) : Prop :=
  ∀ p s, cache.lookup p = some s → fs p = some s

/-- `IncChain fs root content fp links final`: starting from `content`
(at file `fp`), each level is exactly one inclusion directive whose
trimmed capture resolves (under `root`) to the next listed path, whose
stored content is the next level; the last level has no directives and is
the expansion result `final`. -/
inductive IncChain (fs : Fs) (root : String) : String → String → List String → String → Prop
  | nil (content fp : String)
      (h : (splitIncludes content.data).any isIncSeg = false) :
      IncChain fs root content fp [] content
  | cons (content fp b rp next final : String) (rest : List String)
      (hsegs : splitIncludes content.data = [Seg.lit [], Seg.inc b, Seg.lit []])
      (hres : resolveIncludePath (jsTrim b) root fp = Except.ok rp)
      (hfs : fs rp = some next)
      (hrest : IncChain fs root next rp rest final) :
      IncChain fs root content fp (rp :: rest) final

/-! ## Concrete fixtures used by the closed theorems -/

/-- Two-file repository for the depth-boundary witness:
`t.md` includes `a.md`, `a.md` includes `b.md`, `b.md` is plain. -/
def fsChain2 : Fs := fun q =>
  if q = "/r/a.md" then some "!!!include(b.md)!!!"
  else if q = "/r/b.md" then some "done" else none

/-- Two-file cyclic repository: `a.md` includes `b.md` and `b.md`
includes `a.md`. -/
def fsCycle : Fs := fun q =>
  if q = "/repo/a.md" then some "!!!include(b.md)!!!"
  else if q = "/repo/b.md" then some "!!!include(a.md)!!!" else none

/-- A file system answering every path, for showing that a path-escaping
include is rejected without any read. -/
def fsAll : Fs := fun _ => some "SECRET"

/-- The data-flow stated by claim C1: include expansion applied to the raw
file first, the build cleaning (frontmatter stripping, then
directive/component rewriting) applied to the expansion result. -/
def claimC1Pipeline (fs : Fs) (raw : String) (options : IncludeOptions) :
    Except ExpandErr String :=
  match expandIncludeDirectives fs raw options with
  | .ok expanded => .ok (buildCleaned expanded)
  | .error e => .error e

/-- The final `/`-separated segment of a path (the whole path if it has no
separator): the spec-side reading of the `readme.md`/`index.md` folding
condition of `mapDocPath`. -/
def lastSegment (s : String) : String :=
  String.mk ((s.data.reverse.takeWhile (fun c => c ≠ '/')).reverse)

/-! ## General lemmas -/

theorem str_mk_data (s : String) : String.mk s.data = s := by
  cases s
  rfl

theorem str_empty_append (s : String) : String.mk [] ++ s = s := by
  cases s
  rfl

theorem str_append_empty (s : String) : s ++ String.mk [] = s := by
  cases s with
  | mk d =>
    show String.mk (d ++ []) = String.mk d
    rw [List.append_nil]

theorem splitOnNl_single {cs : List Char} (h : '\n' ∉ cs) : splitOnNl cs = [cs] := by
  induction cs with
  | nil => rfl
  | cons c rest ih =>
    have hc : c ≠ '\n' := fun e => h (e ▸ List.mem_cons_self c rest)
    have hr : '\n' ∉ rest := fun e => h (List.mem_cons_of_mem c e)
    simp [splitOnNl, hc, ih hr]

theorem splitLines_single {s : String} (h : '\n' ∉ s.data) : splitLines s = [s] := by
  simp [splitLines, splitOnNl_single h, str_mk_data]

theorem contains_eq_false_of_not_mem {l : List String} {a : String} (h : a ∉ l) :
    l.contains a = false := by
  have : ¬ (List.elem a l = true) := fun e => h (List.elem_iff.mp e)
  simpa [List.contains] using this

theorem contains_eq_true_of_mem {l : List String} {a : String} (h : a ∈ l) :
    l.contains a = true := by
  simpa [List.contains] using List.elem_iff.mpr h

theorem lead_bang_not_fence {t : String} (h : strHasLead t "!!!" = true) :
    strHasLead t "```" = false ∧ strHasLead t "~~~" = false ∧ t ≠ "---" := by
  have hp : "!!!".data <+: t.data := List.isPrefixOf_iff_prefix.mp h
  obtain ⟨tail, htail⟩ := hp
  have hdata : t.data = '!' :: '!' :: '!' :: tail := htail.symm
  refine ⟨?_, ?_, ?_⟩
  · simp [strHasLead, hdata, List.isPrefixOf]
  · simp [strHasLead, hdata, List.isPrefixOf]
  · intro he
    rw [he] at hdata
    simp at hdata

/-! ### Sortedness of the comparator-based insertion sort -/

theorem lexLe_total : ∀ as bs : List Char, lexLe as bs = true ∨ lexLe bs as = true := by
  intro as
  induction as with
  | nil => intro bs; left; rfl
  | cons a as ih =>
    intro bs
    cases bs with
    | nil => right; rfl
    | cons b bs =>
      by_cases h1 : a.toNat < b.toNat
      · left; simp [lexLe, h1]
      · by_cases h2 : b.toNat < a.toNat
        · right; simp [lexLe, h2]
        · rcases ih bs with h | h
          · left; simp [lexLe, h1, h2, h]
          · right; simp [lexLe, h1, h2, h]

theorem lexLe_trans :
    ∀ as bs cs : List Char, lexLe as bs = true → lexLe bs cs = true → lexLe as cs = true := by
  intro as
  induction as with
  | nil => intro bs cs _ _; rfl
  | cons a as ih =>
    intro bs cs h1 h2
    cases bs with
    | nil => simp [lexLe] at h1
    | cons b bs =>
      cases cs with
      | nil => simp [lexLe] at h2
      | cons c cs =>
        simp only [lexLe] at h1 h2 ⊢
        by_cases hab : a.toNat < b.toNat
        · by_cases hbc : b.toNat < c.toNat
          · have : a.toNat < c.toNat := Nat.lt_trans hab hbc
            simp [this]
          · by_cases hcb : c.toNat < b.toNat
            · simp [hab, hbc, hcb] at h2
            · have hbc2 : b.toNat = c.toNat := Nat.le_antisymm (Nat.le_of_not_lt hcb) (Nat.le_of_not_lt hbc)
              have : a.toNat < c.toNat := hbc2 ▸ hab
              simp [this]
        · by_cases hba : b.toNat < a.toNat
          · simp [hab, hba] at h1
          · have hab2 : a.toNat = b.toNat := Nat.le_antisymm (Nat.le_of_not_lt hba) (Nat.le_of_not_lt hab)
            by_cases hbc : b.toNat < c.toNat
            · have : a.toNat < c.toNat := hab2 ▸ hbc
              simp [this]
            · by_cases hcb : c.toNat < b.toNat
              · simp [hbc, hcb] at h2
              · have hac : ¬ a.toNat < c.toNat := by
                  have : b.toNat = c.toNat := Nat.le_antisymm (Nat.le_of_not_lt hcb) (Nat.le_of_not_lt hbc)
                  omega
                have hca : ¬ c.toNat < a.toNat := by
                  have : b.toNat = c.toNat := Nat.le_antisymm (Nat.le_of_not_lt hcb) (Nat.le_of_not_lt hbc)
                  omega
                simp only [hab, hba, hbc, hcb, if_false] at h1 h2
                simp only [hac, hca, if_false]
                exact ih bs cs h1 h2

theorem strLeB_total (a b : String) : strLeB a b = true ∨ strLeB b a = true :=
  lexLe_total a.data b.data

theorem strLeB_trans {a b c : String} (h1 : strLeB a b = true) (h2 : strLeB b c = true) :
    strLeB a c = true :=
  lexLe_trans a.data b.data c.data h1 h2

theorem mem_insertLe {le : α → α → Bool} {a x : α} :
    ∀ {l : List α}, x ∈ insertLe le a l ↔ x = a ∨ x ∈ l := by
  intro l
  induction l with
  | nil => simp [insertLe]
  | cons b l ih =>
    by_cases h : le a b
    · simp [insertLe, h]
    · simp [insertLe, h, ih]
      tauto

theorem pairwise_insertLe {le : α → α → Bool}
    (ht : ∀ a b, le a b = true ∨ le b a = true)
    (htr : ∀ a b c, le a b = true → le b c = true → le a c = true)
    (a : α) :
    ∀ {l : List α}, l.Pairwise (fun x y => le x y = true) →
      (insertLe le a l).Pairwise (fun x y => le x y = true) := by
  intro l
  induction l with
  | nil => intro _; simp [insertLe]
  | cons b l ih =>
    intro hp
    rw [List.pairwise_cons] at hp
    by_cases h : le a b
    · have hins : insertLe le a (b :: l) = a :: b :: l := by simp [insertLe, h]
      rw [hins, List.pairwise_cons]
      constructor
      · intro y hy
        rcases List.mem_cons.mp hy with rfl | hy
        · exact h
        · exact htr a b y h (hp.1 y hy)
      · rw [List.pairwise_cons]
        exact hp
    · have hins : insertLe le a (b :: l) = b :: insertLe le a l := by simp [insertLe, h]
      rw [hins, List.pairwise_cons]
      constructor
      · intro y hy
        rcases mem_insertLe.mp hy with rfl | hy
        · rcases ht y b with hyb | hby
          · exact absurd hyb (by simpa using h)
          · exact hby
        · exact hp.1 y hy
      · exact ih hp.2

theorem pairwise_sortLe {le : α → α → Bool}
    (ht : ∀ a b, le a b = true ∨ le b a = true)
    (htr : ∀ a b c, le a b = true → le b c = true → le a c = true) :
    ∀ l : List α, (sortLe le l).Pairwise (fun x y => le x y = true) := by
  intro l
  induction l with
  | nil => simp [sortLe]
  | cons b l ih => exact pairwise_insertLe ht htr b ih

/-! ### Last-segment characterization for the doc-path mapping -/

theorem takeWhile_all {p : Char → Bool} :
    ∀ {as : List Char}, (∀ a ∈ as, p a = true) → as.takeWhile p = as := by
  intro as
  induction as with
  | nil => intro _; rfl
  | cons a as ih =>
    intro h
    have ha := h a (List.mem_cons_self a as)
    simp [List.takeWhile, ha, ih (fun x hx => h x (List.mem_cons_of_mem a hx))]

theorem takeWhile_append_all {p : Char → Bool} :
    ∀ {as : List Char} {b : Char} {bs : List Char},
      (∀ a ∈ as, p a = true) → p b = false → (as ++ b :: bs).takeWhile p = as := by
  intro as
  induction as with
  | nil =>
    intro b bs _ hb
    simp [List.takeWhile, hb]
  | cons a as ih =>
    intro b bs h hb
    have ha := h a (List.mem_cons_self a as)
    simp [List.takeWhile, ha, ih (fun x hx => h x (List.mem_cons_of_mem a hx)) hb]

theorem head_dropWhile_false {p : Char → Bool} :
    ∀ {l : List Char} {c : Char} {cs : List Char}, l.dropWhile p = c :: cs → p c = false := by
  intro l
  induction l with
  | nil => intro c cs h; simp [List.dropWhile] at h
  | cons a l ih =>
    intro c cs h
    by_cases ha : p a
    · exact ih (by simpa [List.dropWhile, ha] using h)
    · rw [List.dropWhile_cons_of_neg (by simpa using ha)] at h
      cases h
      simpa using ha

theorem lastSegment_iff {q x : String} (hx : '/' ∉ x.data) :
    lastSegment q = x ↔ (q = x ∨ strEnds q ("/" ++ x) = true) := by
  have hslash : ("/" ++ x).data = '/' :: x.data := by
    rw [String.data_append]
    rfl
  constructor
  · intro h
    have hdata : (q.data.reverse.takeWhile (fun c => c ≠ '/')).reverse = x.data := by
      have := congrArg String.data h
      simpa [lastSegment] using this
    have htake : q.data.reverse.takeWhile (fun c => c ≠ '/') = x.data.reverse := by
      rw [← hdata, List.reverse_reverse]
    have hsplit := List.takeWhile_append_dropWhile
      (p := fun c => c ≠ '/') (l := q.data.reverse)
    cases hd : q.data.reverse.dropWhile (fun c => c ≠ '/') with
    | nil =>
      left
      apply String.ext
      have : q.data.reverse = x.data.reverse := by
        rw [← hsplit, htake, hd, List.append_nil]
      have := congrArg List.reverse this
      simpa using this
    | cons c d =>
      right
      have hc : c = '/' := by
        have := head_dropWhile_false hd
        simpa using this
      have hq : q.data.reverse = x.data.reverse ++ '/' :: d := by
        rw [← hsplit, htake, hd, hc]
      have hq2 : q.data = d.reverse ++ '/' :: x.data := by
        have := congrArg List.reverse hq
        simpa [List.reverse_append] using this
      rw [strEnds, List.isSuffixOf_iff_suffix, hslash]
      exact ⟨d.reverse, hq2.symm⟩
  · intro h
    rcases h with rfl | h
    · have hall : ∀ a ∈ q.data.reverse, (fun c => decide (c ≠ '/')) a = true := by
        intro a ha
        have : a ∈ q.data := List.mem_reverse.mp ha
        simp
        intro e
        exact hx (e ▸ this)
      show String.mk ((q.data.reverse.takeWhile (fun c => c ≠ '/')).reverse) = q
      rw [takeWhile_all hall, List.reverse_reverse, str_mk_data]
    · rw [strEnds, List.isSuffixOf_iff_suffix, hslash] at h
      obtain ⟨ys, hys⟩ := h
      have hrev : q.data.reverse = x.data.reverse ++ '/' :: ys.reverse := by
        rw [← hys]
        simp [List.reverse_append]
      have hall : ∀ a ∈ x.data.reverse, (fun c => decide (c ≠ '/')) a = true := by
        intro a ha
        have : a ∈ x.data := List.mem_reverse.mp ha
        simp
        intro e
        exact hx (e ▸ this)
      show String.mk ((q.data.reverse.takeWhile (fun c => c ≠ '/')).reverse) = x
      rw [hrev, takeWhile_append_all hall (by simp), List.reverse_reverse, str_mk_data]

theorem strEnds_trans {a b c : String} (h1 : strEnds a b = true) (h2 : strEnds b c = true) :
    strEnds a c = true := by
  rw [strEnds, List.isSuffixOf_iff_suffix] at h1 h2 ⊢
  exact h2.trans h1

theorem strEnds_append_left {a b c : String} (h : strEnds b c = true) :
    strEnds (a ++ b) c = true := by
  rw [strEnds, List.isSuffixOf_iff_suffix] at h ⊢
  rw [String.data_append]
  exact h.trans (List.suffix_append a.data b.data)

theorem ends_md_of_lastSeg {p x : String} (hx : '/' ∉ x.data) (hxe : strEnds x ".md" = true)
    (h : lastSegment (strLower p) = x) : strEnds (strLower p) ".md" = true := by
  rcases (lastSegment_iff hx).mp h with h1 | h2
  · rw [h1]; exact hxe
  · exact strEnds_trans h2 (strEnds_append_left hxe)

/-! ## Claim C1 (corrected): the build pipeline does not expand includes -/

/-- C1 counterexample: for the content `!!!include(snippet.md)!!!` and a
repository storing `HEY` at `/repo/snippet.md`, the include-expander-first
pipeline claimed by the spec produces `HEY`, while the build's actual
per-file cleaning produces the empty string: `build` never invokes
`expandIncludeDirectives`, and the directive/component rewriter drops the
`!!!` line instead. -/
theorem c1_counterexample :
    claimC1Pipeline (fsOne "/repo/snippet.md" "HEY") "!!!include(snippet.md)!!!"
        ⟨"/repo", "/repo/doc.md", none⟩ = .ok "HEY"
    ∧ buildCleaned "!!!include(snippet.md)!!!" = ""
    ∧ (Except.ok (buildCleaned "!!!include(snippet.md)!!!") : Except ExpandErr String)
      ≠ claimC1Pipeline (fsOne "/repo/snippet.md" "HEY") "!!!include(snippet.md)!!!"
        ⟨"/repo", "/repo/doc.md", none⟩ :=
  ⟨by decide, by decide, by decide⟩

/-- C1 (amended): the build pipeline applies frontmatter stripping and then
directive/component rewriting, never include expansion; any single-line
content whose trimmed form starts with `!!!` (an include directive in
particular) is dropped by the rewriter, yielding empty cleaned content. -/
theorem c1_build_drops_include_lines :
    ∀ l : String, strHasLead (jsTrim l) "!!!" = true → '\n' ∉ l.data →
      buildCleaned l = "" := by
  intro l h hn
  obtain ⟨hbt, htl, hne⟩ := lead_bang_not_fence h
  have hsplit : splitLines l = [l] := splitLines_single hn
  have hfm : stripFrontmatter l = l := by
    unfold stripFrontmatter
    rw [hsplit]
    simp [hne]
  have hupd : updateFenceState l initFence = initFence := by
    unfold updateFenceState
    simp [hbt, htl, initFence]
  unfold buildCleaned
  rw [hfm]
  unfold stripVuePressDirectives
  rw [hsplit]
  unfold stripVuePressCore
  rw [hupd]
  simp [initFence, h]
  rfl

/-- Witness for the amended C1 theorem at a concrete include directive. -/
theorem c1_witness : buildCleaned "!!!include(snippet.md)!!!" = "" :=
  c1_build_drops_include_lines "!!!include(snippet.md)!!!" (by decide) (by decide)

/-! ## Claim C5 (corrected): `cloud` tags are kept as the bare name -/

/-- C5 counterexample: an open or self-closing `cloud` tag outside a fence
is rewritten to the literal text `cloud`, not to empty text — the empty
computed text triggers the bare-tag-name fallback `text || tagName`. -/
theorem c5_counterexample :
    replaceComponentTags "<cloud>" = "cloud"
    ∧ replaceComponentTags "<cloud />" = "cloud"
    ∧ stripVuePressDirectives "x <cloud> y" = "x cloud y"
    ∧ ("cloud" : String) ≠ "" :=
  ⟨by decide, by decide, by decide, by decide⟩

/-- C5 (amended): the computed text of a `cloud` component is always empty,
but by the fallback the open and self-closing forms are rewritten to the
bare tag name `cloud`; only the closing form is removed. -/
theorem c5_cloud_fallback :
    (∀ attrs : List (String × String), componentText "cloud" attrs = "")
    ∧ replaceComponentTags "<cloud>" = "cloud"
    ∧ replaceComponentTags "<cloud />" = "cloud"
    ∧ replaceComponentTags "</cloud>" = "" :=
  ⟨fun _ => rfl, by decide, by decide, by decide⟩

/-! ## Claim C6 (confirmed): the summary cleaning steps -/

/-- C6: `extractSummary` joins the collected paragraph lines with single
spaces and cleans the result by replacing images with alt text, links with
link text, removing remaining HTML tags, removing inline code markers
(content kept), removing leading blockquote markers, collapsing whitespace
runs and trimming; an empty paragraph yields an empty summary. -/
theorem c6_summary_cleaning :
    (∀ c : String,
      extractSummary c = cleanSummaryText (String.intercalate " " (summaryParagraph c)))
    ∧ cleanSummaryText "![Alt](i.png) stays" = "Alt stays"
    ∧ cleanSummaryText "see [Text](u.md)" = "see Text"
    ∧ cleanSummaryText "a <em>b</em> c" = "a b c"
    ∧ cleanSummaryText "use `code` here" = "use code here"
    ∧ cleanSummaryText "> quoted" = "quoted"
    ∧ cleanSummaryText "  a \t b  " = "a b"
    ∧ extractSummary "" = ""
    ∧ extractSummary "# Title\n- item\n\n" = "" :=
  ⟨fun _ => rfl, by decide, by decide, by decide, by decide, by decide, by decide,
   by decide, by decide⟩

/-! ## Claim C7 (corrected): link normalization is not idempotent in
general, but untouchable destinations are indeed left untouched -/

/-- C7 counterexample: with the schemed base URL `https://x/)/`, running
`normalizeLinks` twice differs from running it once — the first pass
rewrites `[c](d.md [a](b.md)` into a line in which the second pass finds a
new link span `[a](b.md)` and rewrites it. -/
theorem c7_counterexample :
    hasScheme "https://x/)/" = true
    ∧ normalizeLinks (normalizeLinks "[c](d.md [a](b.md)" "https://x/)/" "f.md")
        "https://x/)/" "f.md"
      ≠ normalizeLinks "[c](d.md [a](b.md)" "https://x/)/" "f.md" :=
  ⟨by decide, by decide⟩

/-- C7 (amended): a destination that is empty, a pure fragment,
protocol-relative, or carries an explicit URI scheme is left untouched by
`normalizeDocLink`; full idempotence of `normalizeLinks` fails in general
(see the counterexample), since re-parsing a rewritten line can expose new
link spans. -/
theorem c7_untouched_destinations :
    ∀ url currentFilePath baseUrl : String,
      url = "" ∨ strHasLead url "#" = true ∨ strHasLead url "//" = true
        ∨ hasScheme url = true →
      normalizeDocLink url currentFilePath baseUrl = url := by
  intro url cur base h
  unfold normalizeDocLink
  rcases h with rfl | h | h | h
  · simp
  · simp [h]
  · by_cases h1 : (decide (url = "") || strHasLead url "#") = true
    · simp [h1]
    · simp [h1, h]
  · by_cases h1 : (decide (url = "") || strHasLead url "#") = true
    · simp [h1]
    · simp [h1, h]

/-- Witness for the amended C7 theorem at a schemed destination. -/
theorem c7_witness :
    normalizeDocLink "https://a/b.md" "f.md" "https://x/" = "https://a/b.md" :=
  c7_untouched_destinations "https://a/b.md" "f.md" "https://x/"
    (Or.inr (Or.inr (Or.inr (by decide))))

/-! ## Claim C8 (confirmed): the doc-path mapping -/

/-- C8: a final path segment `readme.md` or `index.md` (case-insensitive)
maps to the directory's `index.html`; any other `.md` path has its
extension swapped to `.html`; non-Markdown paths pass through; and the
spec's concrete example holds. -/
theorem c8_doc_path_mapping :
    docPathToUrl "system/updates.md" "https://x/docs/5.x/"
      = "https://x/docs/5.x/system/updates.html"
    ∧ (∀ p : String,
        lastSegment (strLower p) = "readme.md" ∨ lastSegment (strLower p) = "index.md" →
        mapDocPath p = pathJoin (pathDirname p) "index.html")
    ∧ (∀ p : String, strEnds (strLower p) ".md" = true →
        lastSegment (strLower p) ≠ "readme.md" → lastSegment (strLower p) ≠ "index.md" →
        mapDocPath p = String.mk (p.data.take (p.data.length - 3)) ++ ".html")
    ∧ (∀ p : String, strEnds (strLower p) ".md" = false → mapDocPath p = p) := by
  have hxr : '/' ∉ ("readme.md" : String).data := by decide
  have hxi : '/' ∉ ("index.md" : String).data := by decide
  have hsr : ("/" ++ "readme.md" : String) = "/readme.md" := rfl
  have hsi : ("/" ++ "index.md" : String) = "/index.md" := rfl
  have readmeCond :
      ∀ p : String, lastSegment (strLower p) = "readme.md" ↔
        (strLower p = "readme.md" ∨ strEnds (strLower p) "/readme.md" = true) := by
    intro p
    rw [lastSegment_iff hxr, hsr]
  have indexCond :
      ∀ p : String, lastSegment (strLower p) = "index.md" ↔
        (strLower p = "index.md" ∨ strEnds (strLower p) "/index.md" = true) := by
    intro p
    rw [lastSegment_iff hxi, hsi]
  have readmeFalse :
      ∀ p : String, lastSegment (strLower p) ≠ "readme.md" →
        (decide (strLower p = "readme.md") || strEnds (strLower p) "/readme.md") = false := by
    intro p h
    have h1 : ¬ strLower p = "readme.md" := fun e => h ((readmeCond p).mpr (Or.inl e))
    have h2 : ¬ strEnds (strLower p) "/readme.md" = true :=
      fun e => h ((readmeCond p).mpr (Or.inr e))
    simp [h1, h2]
  have indexFalse :
      ∀ p : String, lastSegment (strLower p) ≠ "index.md" →
        (decide (strLower p = "index.md") || strEnds (strLower p) "/index.md") = false := by
    intro p h
    have h1 : ¬ strLower p = "index.md" := fun e => h ((indexCond p).mpr (Or.inl e))
    have h2 : ¬ strEnds (strLower p) "/index.md" = true :=
      fun e => h ((indexCond p).mpr (Or.inr e))
    simp [h1, h2]
  refine ⟨by decide, ?_, ?_, ?_⟩
  · intro p h
    rcases h with h | h
    · have hc : (decide (strLower p = "readme.md") || strEnds (strLower p) "/readme.md")
          = true := by
        rcases (readmeCond p).mp h with h1 | h1 <;> simp [h1]
      simp only [mapDocPath, hc]
      rfl
    · have hnr : lastSegment (strLower p) ≠ "readme.md" := by
        rw [h]; decide
      have hcr := readmeFalse p hnr
      have hc : (decide (strLower p = "index.md") || strEnds (strLower p) "/index.md")
          = true := by
        rcases (indexCond p).mp h with h1 | h1 <;> simp [h1]
      simp only [mapDocPath, hcr, hc]
      rfl
  · intro p hmd hr hi
    have hcr := readmeFalse p hr
    have hci := indexFalse p hi
    simp only [mapDocPath, hcr, hci, hmd]
    rfl
  · intro p hmd
    have hr : lastSegment (strLower p) ≠ "readme.md" := by
      intro h
      rw [ends_md_of_lastSeg hxr (by decide) h] at hmd
      cases hmd
    have hi : lastSegment (strLower p) ≠ "index.md" := by
      intro h
      rw [ends_md_of_lastSeg hxi (by decide) h] at hmd
      cases hmd
    have hcr := readmeFalse p hr
    have hci := indexFalse p hi
    simp only [mapDocPath, hcr, hci, hmd]
    rfl

/-- Witness for C8 at concrete paths exercising each mapping clause. -/
theorem c8_witness :
    mapDocPath "guides/README.md" = pathJoin (pathDirname "guides/README.md") "index.html"
    ∧ mapDocPath "a/b/Index.MD" = pathJoin (pathDirname "a/b/Index.MD") "index.html"
    ∧ mapDocPath "system/updates.md"
        = String.mk ("system/updates.md".data.take ("system/updates.md".data.length - 3))
          ++ ".html"
    ∧ mapDocPath "image.png" = "image.png" :=
  ⟨c8_doc_path_mapping.2.1 "guides/README.md" (Or.inl (by decide)),
   c8_doc_path_mapping.2.1 "a/b/Index.MD" (Or.inr (by decide)),
   c8_doc_path_mapping.2.2.1 "system/updates.md" (by decide) (by decide) (by decide),
   c8_doc_path_mapping.2.2.2 "image.png" (by decide)⟩

/-! ## Claim C9 (confirmed): index sections and entries are sorted -/

/-- C9: for every input file set, the assembled index has its sections
sorted by group name and, within every section, its entries sorted by
root-relative path; checked additionally on a concrete file set spanning
two top-level directories and a root-level file. -/
theorem c9_index_sorted :
    (∀ (baseUrl : String) (files : List FileInfo),
      ((buildIndexSections baseUrl files).map Prod.fst).Pairwise
        (fun a b => strLeB a b = true)
      ∧ ∀ sec ∈ buildIndexSections baseUrl files,
          sec.snd.Pairwise (fun a b : IndexEntry => strLeB a.relPath b.relPath = true))
    ∧ (buildIndexSections "https://x/"
        [⟨"b/two.md", "Two", ""⟩, ⟨"a/one.md", "One", ""⟩, ⟨"top.md", "Top", ""⟩]).map
          Prod.fst
      = ["a", "b", "root"] := by
  constructor
  · intro baseUrl files
    constructor
    · have :
          (buildIndexSections baseUrl files).map Prod.fst
            = sortLe strLeB ((indexGroups baseUrl files).map Prod.fst) := by
        simp only [buildIndexSections, List.map_map]
        exact List.map_id _
      rw [this]
      exact pairwise_sortLe strLeB_total (fun a b c => strLeB_trans) _
    · intro sec hsec
      simp only [buildIndexSections, List.mem_map] at hsec
      obtain ⟨k, _, hk⟩ := hsec
      rw [← hk]
      exact pairwise_sortLe
        (fun a b : IndexEntry => strLeB_total a.relPath b.relPath)
        (fun (a b c : IndexEntry) h1 h2 => strLeB_trans h1 h2) _
  · decide

/-! ## Claim C10 (confirmed): fence state is updated before classification -/

/-- C10: every fence-aware scanner updates the fence state before
classifying the line, so a fence-opening line is already treated as fenced
(passed through or skipped untouched) while a fence-closing line is
treated as unfenced and transformed; in particular a closing fence-marker
line preceding any paragraph is collected into the summary paragraph. -/
theorem c10_fence_update_order :
    stripVuePressDirectives "``` <cloud>\n```" = "``` <cloud>\n```"
    ∧ stripVuePressDirectives "```\n``` <cloud>" = "```\n``` cloud"
    ∧ normalizeLinks "``` [x](y.md)\n```" "https://x/" "f.md" = "``` [x](y.md)\n```"
    ∧ normalizeLinks "```\n``` [x](y.md)" "https://x/" "f.md"
      = "```\n``` [x](https://x/y.html)"
    ∧ summaryParagraph "```\ncode\n```\nHello" = ["```", "Hello"]
    ∧ extractSummary "```\ncode\n```\nHello" = "` Hello"
    ∧ extractTitle "```\n# Fenced\n```\n# Real" "fb" = "Real" :=
  ⟨by decide, by decide, by decide, by decide, by decide, by decide, by decide⟩

/-! ## Claims C2-C4: the include expander -/

theorem str_append_empty_lit (s : String) : s ++ "" = s := by
  cases s with
  | mk d =>
    show String.mk (d ++ []) = String.mk d
    rw [List.append_nil]

theorem getD_eq_of_lt {l : List String} {n : Nat} (h : n < l.length) (d1 d2 : String) :
    l.getD n d1 = l.getD n d2 := by
  rw [List.getD_eq_getElem?_getD, List.getD_eq_getElem?_getD, List.getElem?_eq_getElem h]
  rfl

/-- Unfolding of one expansion level on a content that is exactly one
inclusion directive. -/
theorem expandAux_single_inc {fs : Fs} {root : String} {maxD f : Nat}
    {content fp b : String} {stack : List String} {cache : Cache}
    (hsegs : splitIncludes content.data = [Seg.lit [], Seg.inc b, Seg.lit []]) :
    expandAux fs root maxD (f + 1) content fp stack cache
      = (match resolveIncludePath (jsTrim b) root fp with
         | .error e => .error e
         | .ok rp =>
           if stack.contains rp then .error (.cycle rp)
           else
             match (match cache.lookup rp with
                    | some s => Except.ok (s, cache)
                    | none =>
                      match fs rp with
                      | some s => Except.ok (s, (rp, s) :: cache)
                      | none => Except.error (ExpandErr.readFailed rp)) with
             | .error e => .error e
             | .ok (included, cache1) =>
               match expandAux fs root maxD f included rp (rp :: stack) cache1 with
               | .error e => .error e
               | .ok (expanded, cache2) => .ok (expanded, cache2)) := by
  cases hres : resolveIncludePath (jsTrim b) root fp with
  | error e => simp [expandAux, hsegs, isIncSeg, goSegs, hres]
  | ok rp =>
    by_cases hst : rp ∈ stack
    · simp [expandAux, hsegs, isIncSeg, goSegs, hres, hst]
    · cases hcl : cache.lookup rp with
      | some s =>
        cases hch : expandAux fs root maxD f s rp (rp :: stack) cache with
        | error e => simp [expandAux, hsegs, isIncSeg, goSegs, hres, hst, hcl, hch]
        | ok pr =>
          obtain ⟨expanded, cache2⟩ := pr
          simp [expandAux, hsegs, isIncSeg, goSegs, hres, hst, hcl, hch,
                str_empty_append, str_append_empty_lit]
      | none =>
        cases hfs : fs rp with
        | none => simp [expandAux, hsegs, isIncSeg, goSegs, hres, hst, hcl, hfs]
        | some s =>
          cases hch : expandAux fs root maxD f s rp (rp :: stack) ((rp, s) :: cache) with
          | error e => simp [expandAux, hsegs, isIncSeg, goSegs, hres, hst, hcl, hfs, hch]
          | ok pr =>
            obtain ⟨expanded, cache2⟩ := pr
            simp [expandAux, hsegs, isIncSeg, goSegs, hres, hst, hcl, hfs, hch,
                  str_empty_append, str_append_empty_lit]

theorem expandAux_no_inc {fs : Fs} {root : String} {maxD f : Nat}
    {content fp : String} {stack : List String} {cache : Cache}
    (h : (splitIncludes content.data).any isIncSeg = false) :
    expandAux fs root maxD (f + 1) content fp stack cache = .ok (content, cache) := by
  simp [expandAux, h]

/-- Expansion of an include chain, at every budget: with enough budget the
result is the final content of the chain; otherwise the depth-exceeded
error names the file at which the budget ran out. -/
theorem expandAux_chain {fs : Fs} {root : String}
    {content fp : String} {links : List String} {final : String}
    (hc : IncChain fs root content fp links final) :
    ∀ (maxD f : Nat) (stack : List String) (cache : Cache),
      links.Nodup → (∀ q ∈ links, q ∉ stack) → cacheAgrees fs cache →
      (links.length < f →
        ∃ cache2, expandAux fs root maxD f content fp stack cache
            = .ok (final, cache2) ∧ cacheAgrees fs cache2)
      ∧ (f ≤ links.length →
        expandAux fs root maxD f content fp stack cache
          = .error (.depthExceeded maxD (if f = 0 then fp else links.getD (f - 1) fp))) := by
  induction hc with
  | nil content fp h =>
    intro maxD f stack cache _ _ hca
    constructor
    · intro hlt
      cases f with
      | zero => exact absurd hlt (by simp)
      | succ f' => exact ⟨cache, expandAux_no_inc h, hca⟩
    · intro hle
      have hf : f = 0 := Nat.le_zero.mp (by simpa using hle)
      subst hf
      simp [expandAux]
  | cons content fp b rp next final rest hsegs hres hfsrp hrest ih =>
    intro maxD f stack cache hnd hstack hca
    cases f with
    | zero =>
      constructor
      · intro hlt
        exact absurd hlt (Nat.not_lt_zero _)
      · intro _
        simp [expandAux]
    | succ f' =>
      have hnods := List.nodup_cons.mp hnd
      have hrp_stack : rp ∉ stack := hstack rp (List.mem_cons_self rp rest)
      have hcontains : stack.contains rp = false := contains_eq_false_of_not_mem hrp_stack
      have hstack2 : ∀ q ∈ rest, q ∉ rp :: stack := by
        intro q hq
        rw [List.mem_cons]
        rintro (rfl | hqs)
        · exact hnods.1 hq
        · exact hstack q (List.mem_cons_of_mem rp hq) hqs
      have hread : ∃ cache1,
          (match cache.lookup rp with
           | some s => Except.ok (s, cache)
           | none =>
             match fs rp with
             | some s => Except.ok (s, (rp, s) :: cache)
             | none => Except.error (ExpandErr.readFailed rp))
            = Except.ok ((next, cache1) : String × Cache) ∧ cacheAgrees fs cache1 := by
        cases hcl : cache.lookup rp with
        | some s =>
          have hfs2 := hca rp s hcl
          rw [hfsrp] at hfs2
          have hsn : s = next := (Option.some.inj hfs2).symm
          exact ⟨cache, by simp [hcl, hsn], hca⟩
        | none =>
          refine ⟨(rp, next) :: cache, by simp [hcl, hfsrp], ?_⟩
          intro p s hl
          by_cases hpq : p = rp
          · subst hpq
            have hlk : List.lookup p ((p, next) :: cache) = some next := by
              simp [List.lookup]
            rw [hlk] at hl
            rw [hfsrp, Option.some.inj hl]
          · have hne : (p == rp) = false := beq_eq_false_iff_ne.mpr hpq
            have hlk : List.lookup p ((rp, next) :: cache) = List.lookup p cache := by
              simp [List.lookup, hne]
            rw [hlk] at hl
            exact hca p s hl
      obtain ⟨cache1, hread_eq, hca1⟩ := hread
      constructor
      · intro hlt
        have hlt' : rest.length < f' := by
          simpa using Nat.lt_of_succ_lt_succ hlt
        obtain ⟨cache2, hok, hca2⟩ :=
          (ih maxD f' (rp :: stack) cache1 hnods.2 hstack2 hca1).1 hlt'
        refine ⟨cache2, ?_, hca2⟩
        rw [expandAux_single_inc hsegs]
        simp only [hres, hcontains, hread_eq, hok]
        simp
      · intro hle
        have hle' : f' ≤ rest.length := Nat.le_of_succ_le_succ hle
        have herr := (ih maxD f' (rp :: stack) cache1 hnods.2 hstack2 hca1).2 hle'
        rw [expandAux_single_inc hsegs]
        simp only [hres, hcontains, hread_eq, herr]
        cases f' with
        | zero => simp
        | succ k =>
          have hk : k < rest.length := hle'
          simp [List.getD_eq_getElem?_getD, List.getElem?_eq_getElem hk]

/-- C2: for every include chain, expansion succeeds exactly when the chain
length is at most the configured maximum depth (default 5); a longer chain
fails with a depth-exceeded error naming the file at the boundary, rather
than silently truncating. -/
theorem c2_depth_boundary (fs : Fs) (content final : String) (links : List String)
    (options : IncludeOptions)
    (hc : IncChain fs (pathResolve1 options.repoRoot) content options.currentFilePath
      links final)
    (hnd : links.Nodup) :
    expandIncludeDirectives fs content options
      = if links.length ≤ options.maxDepth.getD 5 then Except.ok final
        else Except.error (.depthExceeded (options.maxDepth.getD 5)
          (links.getD (options.maxDepth.getD 5) options.currentFilePath)) := by
  have h := expandAux_chain hc (options.maxDepth.getD 5) (options.maxDepth.getD 5 + 1) [] []
    hnd (by intro q _ hq; simp at hq) (by intro p s hl; simp [List.lookup] at hl)
  by_cases hlen : links.length ≤ options.maxDepth.getD 5
  · obtain ⟨cache2, hok, _⟩ := h.1 (Nat.lt_succ_of_le hlen)
    simp only [expandIncludeDirectives]
    rw [hok]
    simp [hlen]
  · have hle : options.maxDepth.getD 5 + 1 ≤ links.length :=
      Nat.succ_le_of_lt (Nat.lt_of_not_le hlen)
    have herr := h.2 hle
    simp only [expandIncludeDirectives]
    rw [herr]
    simp [hlen]

/-- Witness for C2: a two-link chain succeeds at depth 2 and fails with the
depth-exceeded error at depth 1. -/
theorem c2_witness :
    expandIncludeDirectives fsChain2 "!!!include(a.md)!!!" ⟨"/r", "/r/t.md", some 2⟩
      = .ok "done"
    ∧ expandIncludeDirectives fsChain2 "!!!include(a.md)!!!" ⟨"/r", "/r/t.md", some 1⟩
      = .error (.depthExceeded 1 "/r/b.md") := by
  have hchain : IncChain fsChain2 (pathResolve1 "/r") "!!!include(a.md)!!!" "/r/t.md"
      ["/r/a.md", "/r/b.md"] "done" :=
    IncChain.cons "!!!include(a.md)!!!" "/r/t.md" "a.md" "/r/a.md" "!!!include(b.md)!!!"
      "done" ["/r/b.md"] (by decide) (by decide) (by decide)
      (IncChain.cons "!!!include(b.md)!!!" "/r/a.md" "b.md" "/r/b.md" "done" "done" []
        (by decide) (by decide) (by decide)
        (IncChain.nil "done" "/r/b.md" (by decide)))
  constructor
  · have h := c2_depth_boundary fsChain2 "!!!include(a.md)!!!" "done" ["/r/a.md", "/r/b.md"]
      ⟨"/r", "/r/t.md", some 2⟩ hchain (by decide)
    rw [h]
    decide
  · have h := c2_depth_boundary fsChain2 "!!!include(a.md)!!!" "done" ["/r/a.md", "/r/b.md"]
      ⟨"/r", "/r/t.md", some 1⟩ hchain (by decide)
    rw [h]
    decide

/-- C3: in the canonical cyclic include graph (the start includes A, A
includes B, B includes A again), the expander fails with the include-cycle
error at the already-stacked path A instead of recursing on it (the depth
budget, at least 2, is not the error reported). -/
theorem c3_cycle_detected (fs : Fs) (options : IncludeOptions)
    (top ca cb b0 b1 b2 pa pb : String)
    (hsegs0 : splitIncludes top.data = [Seg.lit [], Seg.inc b0, Seg.lit []])
    (hres0 : resolveIncludePath (jsTrim b0) (pathResolve1 options.repoRoot)
      options.currentFilePath = .ok pa)
    (hfsa : fs pa = some ca)
    (hsegs1 : splitIncludes ca.data = [Seg.lit [], Seg.inc b1, Seg.lit []])
    (hres1 : resolveIncludePath (jsTrim b1) (pathResolve1 options.repoRoot) pa = .ok pb)
    (hfsb : fs pb = some cb)
    (hsegs2 : splitIncludes cb.data = [Seg.lit [], Seg.inc b2, Seg.lit []])
    (hres2 : resolveIncludePath (jsTrim b2) (pathResolve1 options.repoRoot) pb = .ok pa)
    (hne : pa ≠ pb)
    (hmd : 2 ≤ options.maxDepth.getD 5) :
    expandIncludeDirectives fs top options = .error (.cycle pa) := by
  have hm : ∃ k, options.maxDepth.getD 5 = k + 1 + 1 :=
    ⟨options.maxDepth.getD 5 - 2, by omega⟩
  obtain ⟨k, hm⟩ := hm
  have hba : pb ≠ pa := fun e => hne e.symm
  have hc0 : (([] : List String)).contains pa = false := rfl
  have hl0 : List.lookup pa ([] : Cache) = none := rfl
  have hc1 : ([pa].contains pb) = false :=
    contains_eq_false_of_not_mem (by simpa using hba)
  have hl1 : List.lookup pb ([(pa, ca)] : Cache) = none := by
    simp [List.lookup, beq_eq_false_iff_ne.mpr hba]
  have hc2 : (([pb, pa] : List String).contains pa) = true :=
    contains_eq_true_of_mem (by simp)
  simp only [expandIncludeDirectives, hm]
  rw [expandAux_single_inc hsegs0]
  simp only [hres0, hc0, hl0, hfsa, Bool.false_eq_true, if_false]
  rw [expandAux_single_inc hsegs1]
  simp only [hres1, hc1, hl1, hfsb, Bool.false_eq_true, if_false]
  rw [expandAux_single_inc hsegs2]
  simp only [hres2, hc2, if_true]

/-- Witness for C3: the concrete two-file cycle `a.md ↔ b.md` under
`/repo` fails with the include-cycle error at `/repo/a.md`. -/
theorem c3_witness :
    expandIncludeDirectives fsCycle "!!!include(a.md)!!!" ⟨"/repo", "/repo/t.md", none⟩
      = .error (.cycle "/repo/a.md") :=
  c3_cycle_detected fsCycle ⟨"/repo", "/repo/t.md", none⟩ "!!!include(a.md)!!!"
    "!!!include(b.md)!!!" "!!!include(a.md)!!!" "a.md" "b.md" "a.md"
    "/repo/a.md" "/repo/b.md" (by decide) (by decide) (by decide) (by decide)
    (by decide) (by decide) (by decide) (by decide) (by decide) (by decide)

/-- C4: an inclusion directive whose resolved, normalized absolute path is
neither the repository root itself nor strictly under it (root plus a
separator as a prefix) makes expansion fail with the path-escape error for
every file system whatsoever — the file is never read. -/
theorem c4_path_escape (options : IncludeOptions) (b : String) (w : List Char)
    (rest : List Seg) (top : String)
    (hsegs : splitIncludes top.data = Seg.lit w :: Seg.inc b :: rest)
    (hesc1 : pathResolve1 (resolveRawInclude (jsTrim b) (pathResolve1 options.repoRoot)
        options.currentFilePath) ≠ pathResolve1 (pathResolve1 options.repoRoot))
    (hesc2 : strHasLead
        (pathResolve1 (resolveRawInclude (jsTrim b) (pathResolve1 options.repoRoot)
          options.currentFilePath))
        (pathResolve1 (pathResolve1 options.repoRoot) ++ "/") = false) :
    ∀ fs : Fs, expandIncludeDirectives fs top options = .error (.pathEscape (jsTrim b)) := by
  intro fs
  have hres : resolveIncludePath (jsTrim b) (pathResolve1 options.repoRoot)
      options.currentFilePath = .error (.pathEscape (jsTrim b)) := by
    unfold resolveIncludePath
    simp [hesc1, hesc2]
  simp [expandIncludeDirectives, expandAux, hsegs, isIncSeg, goSegs, hres]

/-- Witness for C4: `../../etc/passwd` from `/repo/docs/a.md` resolves to
`/etc/passwd`, outside `/repo`, and is rejected even though the ambient
file system would answer every read. -/
theorem c4_witness :
    expandIncludeDirectives fsAll "!!!include(../../etc/passwd)!!!"
        ⟨"/repo", "/repo/docs/a.md", none⟩
      = .error (.pathEscape "../../etc/passwd") :=
  c4_path_escape ⟨"/repo", "/repo/docs/a.md", none⟩ "../../etc/passwd" [] [Seg.lit []]
    "!!!include(../../etc/passwd)!!!" (by decide) (by decide) (by decide) fsAll
